import Mathlib

/-!
Verification of the tutel task-manager core (project.rs, lib.rs).

The data model and operations are translated from `src/project.rs`
(Task, ProjectData, Project and its mutators) and `src/lib.rs`
(ancestor-walking project discovery).  File contents and the
serialization glue live in modules absent from the sources
(`data.rs`, `ser.rs`, `de.rs`); those parts are modelled from the
specification and marked as such in their doc comments.
-/

namespace Tutel

/-- A completable Task within a Project (struct `Task` in project.rs):
`desc`, `index`, `completed`. -/
structure Task where
  desc : String
  index : Nat
  completed : Bool
deriving Repr, DecidableEq

/-- `Task::new(name, completed, index)`. -/
def Task.new (name : String) (completed : Bool) (index : Nat) : Task :=
  { desc := name, completed := completed, index := index }

/-- The part of a Project that is saved/loaded (struct `ProjectData`):
`name` and `tasks`. -/
structure ProjectData where
  name : String
  tasks : List Task
deriving Repr, DecidableEq

/-- Paths are modelled as lists of components; `[]` is the filesystem
root. -/
abbrev FilePath := List String

/-- A Project: its backing-file path, the number of recursive steps
taken to reach that file, and the persisted data. -/
structure Project where
  path : FilePath
  steps : Nat
  data : ProjectData
deriving Repr, DecidableEq

/-- Errors surfaced by the core (anyhow messages in the source). -/
inductive TutelError where
  | indexNotFound (index : Nat)
  | notFound
  | parseError
  | ioError
deriving Repr, DecidableEq

namespace Project

/-- `Project::new(project_file, steps, name)`: a project with no tasks. -/
def new (project_file : FilePath) (steps : Nat) (name : String) : Project :=
  { path := project_file
    steps := steps
    data := { name := name, tasks := [] } }

/-- The body of `next_index`'s loop: `if t.index > highest { highest =
t.index }`. -/
def hiStep (highest : Nat) (t : Task) : Nat :=
  if highest < t.index then t.index else highest

/-- `Project::next_index`: 0 on an empty list, otherwise the highest
index (computed by a running-maximum loop starting from 0), plus one,
wrapping to 0 once the highest reaches 999. -/
def next_index (p : Project) : Nat :=
  if p.data.tasks.isEmpty then 0
  else
    let highest := p.data.tasks.foldl hiStep 0
    if 999 ≤ highest then 0 else highest + 1

/-- `Project::add(name, completed)`: push a new task carrying
`next_index()`. -/
def add (p : Project) (name : String) (completed : Bool) : Project :=
  { p with data := { p.data with
      tasks := p.data.tasks ++ [Task.new name completed p.next_index] } }

/-- `Project::remove(index)`: `retain(|t| t.index != index)`. -/
def remove (p : Project) (index : Nat) : Project :=
  { p with data := { p.data with
      tasks := p.data.tasks.filter (fun t => t.index ≠ index) } }

/-- `Project::remove_all()`: clear the task list. -/
def remove_all (p : Project) : Project :=
  { p with data := { p.data with tasks := [] } }

/-- `Project::remove_completed()`: `retain(|t| !t.completed)`. -/
def remove_completed (p : Project) : Project :=
  { p with data := { p.data with
      tasks := p.data.tasks.filter (fun t => !t.completed) } }

/-- `Project::mark_completion_all(completed)`: set the flag on every
task. -/
def mark_completion_all (p : Project) (completed : Bool) : Project :=
  { p with data := { p.data with
      tasks := p.data.tasks.map (fun t => { t with completed := completed }) } }

/-- The lookup of `Project::get_task_mut(index)`: the first task whose
index matches, if any. -/
def get_task (p : Project) (index : Nat) : Option Task :=
  p.data.tasks.find? (fun t => t.index = index)

/-- Update-through-the-mutable-reference of `get_task_mut`: set the
`completed` flag on the first task with the given index; `none` when no
task matches (the `bail!` path). -/
def markFirst (index : Nat) (completed : Bool) : List Task → Option (List Task)
  | [] => none
  | t :: ts =>
    if t.index = index then some ({ t with completed := completed } :: ts)
    else (markFirst index completed ts).map (t :: ·)

/-- `Project::mark_completion(index, completed)`: looks the task up via
`get_task_mut` and sets its flag; returns the error and the untouched
project when no task has the index.  The pair is the embedding of
`&mut self` plus `Result<()>`. -/
def mark_completion (p : Project) (index : Nat) (completed : Bool) :
    Except TutelError Unit × Project :=
  match markFirst index completed p.data.tasks with
  | some ts => (Except.ok (), { p with data := { p.data with tasks := ts } })
  | none => (Except.error (TutelError.indexNotFound index), p)

end Project

/-- The indices carried by a project's tasks, in list order. -/
def indices (p : Project) : List Nat :=
  p.data.tasks.map Task.index

/-- A persisted file's parsed shape following the schema of the spec
(name plus the ordered list of task records, each a description,
completed flag and index); `malformed` stands for contents that do not
conform.  Modelled from the spec: the serialization glue (`ser.rs`,
`de.rs`, referenced by lib.rs) is not among the sources. -/
inductive Doc where
  | table (name : String) (tasks : List (String × Bool × Nat))
  | malformed
deriving Repr, DecidableEq

/-- Modelled from the spec: `save` serializes exactly `name` and `tasks`
to the structured-text format (`ser.rs` is not among the sources). -/
def serialize (d : ProjectData) : Doc :=
  Doc.table d.name (d.tasks.map fun t => (t.desc, t.completed, t.index))

/-- Modelled from the spec: `load` parses file contents into the
persisted structure (`name`, `tasks`) and fails on contents that do not
conform; loaded tasks retain whatever indices were stored (`de.rs` is
not among the sources). -/
def parseDoc : Doc → Except TutelError ProjectData
  | Doc.table n ts =>
      Except.ok
        { name := n
          tasks := ts.map fun r => { desc := r.1, completed := r.2.1, index := r.2.2 } }
  | Doc.malformed => Except.error TutelError.parseError

/-- The filesystem, as the mapping from file paths to contents. -/
abbrev Filesystem := FilePath → Option Doc

/-- `Project::load(project_file, steps)`: read the file (a missing or
unreadable file is the io-error path) and parse its contents. -/
def Project.load (fs : Filesystem) (project_file : FilePath) (steps : Nat) :
    Except TutelError Project :=
  match fs project_file with
  | none => Except.error TutelError.ioError
  | some doc =>
      (parseDoc doc).map fun d => { path := project_file, steps := steps, data := d }

/-- `Project::save()`: overwrite the backing file with the serialized
data, leaving every other file unchanged. -/
def Project.save (p : Project) (fs : Filesystem) : Filesystem :=
  fun q => if q = p.path then some (serialize p.data) else fs q

/-- `PROJECT_FILE_NAME` from lib.rs. -/
def PROJECT_FILE_NAME : String := ".tutel.toml"

/-- `has_project(path)`: the joined project-file path when the directory
directly contains the project file, `none` otherwise. -/
def has_project (fs : Filesystem) (path : FilePath) : Option FilePath :=
  let project := path ++ [PROJECT_FILE_NAME]
  if (fs project).isSome then some project else none

/-- `Path::ancestors()`: the path itself, then each parent in turn,
ending with the root `[]`. -/
def ancestors (path : FilePath) : List FilePath :=
  (List.range (path.length + 1)).reverse.map fun k => path.take k

/-- The loop of `load_project_rec`, carrying the hop count taken so far.
Modelled from the spec where it goes beyond lib.rs: discovery records
the hop count as the project's depth (the `steps` passed to
`Project.load`); the `data.rs` Project that lib.rs calls into is not
among the sources. -/
def loadRecAux (fs : Filesystem) : List FilePath → Nat → Except TutelError Project
  | [], _ => Except.error TutelError.notFound
  | p :: ps, depth =>
    match has_project fs p with
    | some project_file => Project.load fs project_file depth
    | none => loadRecAux fs ps (depth + 1)

/-- `load_project_rec(path)`: walk the path upwards until the project
file is found and load it; `bail!("no project found")` otherwise. -/
def load_project_rec (fs : Filesystem) (path : FilePath) : Except TutelError Project :=
  loadRecAux fs (ancestors path) 0

/-- One mutation of the task collection: the operations the uniqueness
property quantifies over. -/
inductive Op where
  | add (name : String) (completed : Bool)
  | remove (index : Nat)
deriving Repr, DecidableEq

/-- Apply one operation to a project. -/
def applyOp (p : Project) : Op → Project
  | Op.add n c => p.add n c
  | Op.remove i => p.remove i

/-- Apply a sequence of operations in order. -/
def applyOps (p : Project) : List Op → Project
  | [] => p
  | op :: ops => applyOps (applyOp p op) ops

/-- Side condition for the amended uniqueness claim: an add is
collision-free when every existing index is below the wrap threshold
999 (then the allocated index exceeds them all); removals never
collide. -/
def safeOp (p : Project) : Op → Bool
  | Op.add _ _ => p.data.tasks.all fun t => t.index < 999
  | Op.remove _ => true

/-- A trace is safe when each operation is safe in the state it runs in. -/
def safeTrace (p : Project) : List Op → Bool
  | [] => true
  | op :: ops => safeOp p op && safeTrace (applyOp p op) ops

/-- A project over the given task list, for concrete test inputs. -/
def projOf (tasks : List Task) : Project :=
  { path := [], steps := 0, data := { name := "testproject", tasks := tasks } }

/-- Incomplete tasks carrying the given indices. -/
def tasksOf (l : List Nat) : List Task :=
  l.map fun i => Task.new "t" false i

/-- The round-trip example project of the spec: name "testproject",
tasks ("testtask", completed, 67) and ("moretest", not completed, 99). -/
def testProject : Project :=
  { path := ["home", PROJECT_FILE_NAME]
    steps := 0
    data := { name := "testproject"
              tasks := [Task.new "testtask" true 67, Task.new "moretest" false 99] } }

/-- A project holding two tasks that share index 5. -/
def dupProject : Project :=
  projOf [Task.new "a" false 5, Task.new "b" false 5]

/-- The empty filesystem. -/
def emptyFs : Filesystem := fun _ => none

/-- A filesystem holding exactly one file. -/
def singleFs (file : FilePath) (doc : Doc) : Filesystem :=
  fun q => if q = file then some doc else none

/-- A filesystem holding exactly two files. -/
def twoFs (f₁ : FilePath) (d₁ : Doc) (f₂ : FilePath) (d₂ : Doc) : Filesystem :=
  fun q => if q = f₁ then some d₁ else if q = f₂ then some d₂ else none

/-- `n` adds applied to a fresh empty project. -/
def addMany (n : Nat) : Project :=
  applyOps (Project.new [] 0 "p") (List.replicate n (Op.add "t" false))

/-! ## Lemmas about the running-maximum loop of `next_index` -/

lemma foldl_hiStep_le (c : Nat) (l : List Task) :
    ∀ a, a ≤ c → (∀ t ∈ l, t.index ≤ c) → l.foldl Project.hiStep a ≤ c := by
  induction l with
  | nil => intro a ha _; simpa using ha
  | cons t ts ih =>
    intro a ha h
    simp only [List.foldl_cons]
    refine ih _ ?_ (fun u hu => h u (List.mem_cons_of_mem _ hu))
    by_cases hlt : a < t.index
    · simpa [Project.hiStep, hlt] using h t (List.mem_cons_self _ _)
    · simpa [Project.hiStep, hlt] using ha

lemma le_foldl_hiStep (l : List Task) :
    ∀ a, a ≤ l.foldl Project.hiStep a := by
  induction l with
  | nil => intro a; simp
  | cons t ts ih =>
    intro a
    simp only [List.foldl_cons]
    refine le_trans ?_ (ih _)
    by_cases hlt : a < t.index
    · simp only [Project.hiStep, if_pos hlt]; exact le_of_lt hlt
    · simp [Project.hiStep, if_neg hlt]

lemma mem_le_foldl_hiStep (l : List Task) :
    ∀ a t, t ∈ l → t.index ≤ l.foldl Project.hiStep a := by
  induction l with
  | nil => simp
  | cons u us ih =>
    intro a t ht
    simp only [List.foldl_cons]
    rcases List.mem_cons.mp ht with rfl | ht
    · refine le_trans ?_ (le_foldl_hiStep us _)
      by_cases hlt : a < t.index
      · simp [Project.hiStep, hlt]
      · simp only [Project.hiStep, if_neg hlt]; omega
    · exact ih _ t ht

/-- With a known member `m` that bounds every index, the loop computes
exactly `m`. -/
lemma foldl_hiStep_eq (l : List Task) (m : Nat)
    (hm : ∃ t ∈ l, t.index = m) (hb : ∀ t ∈ l, t.index ≤ m) :
    l.foldl Project.hiStep 0 = m := by
  rcases hm with ⟨t, ht, rfl⟩
  exact le_antisymm (foldl_hiStep_le _ _ _ (Nat.zero_le _) hb) (mem_le_foldl_hiStep _ _ _ ht)

/-! ## Characterization of `next_index` -/

lemma next_index_of_max (p : Project) (m : Nat)
    (hm : ∃ t ∈ p.data.tasks, t.index = m) (hb : ∀ t ∈ p.data.tasks, t.index ≤ m) :
    p.next_index = if 999 ≤ m then 0 else m + 1 := by
  have hne : p.data.tasks.isEmpty = false := by
    rcases hm with ⟨t, ht, _⟩
    cases h : p.data.tasks with
    | nil => rw [h] at ht; cases ht
    | cons a l => simp
  rw [Project.next_index, hne]
  simp only [Bool.false_eq_true, if_false]
  rw [foldl_hiStep_eq _ m hm hb]

lemma next_index_gt (p : Project) (hb : ∀ t ∈ p.data.tasks, t.index < 999) :
    ∀ t ∈ p.data.tasks, t.index < p.next_index := by
  intro t ht
  have hne : p.data.tasks.isEmpty = false := by
    cases h : p.data.tasks with
    | nil => rw [h] at ht; cases ht
    | cons a l => simp
  rw [Project.next_index, hne]
  simp only [Bool.false_eq_true, if_false]
  have hhi : p.data.tasks.foldl Project.hiStep 0 < 999 :=
    Nat.lt_of_le_of_lt (Nat.le_refl _) (by
      have := foldl_hiStep_le 998 p.data.tasks 0 (by omega)
        (fun u hu => Nat.le_of_lt_succ (by simpa using hb u hu))
      omega)
  rw [if_neg (by omega)]
  exact Nat.lt_succ_of_le (mem_le_foldl_hiStep _ _ _ ht)

lemma next_index_le (p : Project) : p.next_index ≤ 999 := by
  rw [Project.next_index]
  split
  · omega
  · dsimp only
    split
    · omega
    · next hw => omega

lemma next_index_wrap (p : Project) (h : ∃ t ∈ p.data.tasks, 999 ≤ t.index) :
    p.next_index = 0 := by
  rcases h with ⟨t, ht, hge⟩
  have hne : p.data.tasks.isEmpty = false := by
    cases hl : p.data.tasks with
    | nil => rw [hl] at ht; cases ht
    | cons a l => simp
  rw [Project.next_index, hne]
  simp only [Bool.false_eq_true, if_false]
  rw [if_pos (le_trans hge (mem_le_foldl_hiStep _ _ _ ht))]

/-! ## Lemmas about `markFirst` -/

lemma markFirst_eq_none_iff (i : Nat) (c : Bool) :
    ∀ l : List Task, Project.markFirst i c l = none ↔ ∀ t ∈ l, t.index ≠ i := by
  intro l
  induction l with
  | nil => simp [Project.markFirst]
  | cons t ts ih =>
    by_cases h : t.index = i
    · simp [Project.markFirst, h]
    · rw [Project.markFirst, if_neg h]
      have hmap : (Project.markFirst i c ts).map (t :: ·) = none ↔
          Project.markFirst i c ts = none := by
        cases Project.markFirst i c ts <;> simp
      rw [hmap, ih]
      constructor
      · intro hall u hu
        rcases List.mem_cons.mp hu with rfl | hu2
        · exact h
        · exact hall u hu2
      · intro hall u hu
        exact hall u (List.mem_cons_of_mem _ hu)

lemma markFirst_append (i : Nat) (c : Bool) (t : Task) (l₂ : List Task)
    (ht : t.index = i) :
    ∀ l₁ : List Task, (∀ u ∈ l₁, u.index ≠ i) →
      Project.markFirst i c (l₁ ++ t :: l₂) =
        some (l₁ ++ { t with completed := c } :: l₂) := by
  intro l₁
  induction l₁ with
  | nil => intro _; simp [Project.markFirst, ht]
  | cons u us ih =>
    intro h
    have hu : u.index ≠ i := h u (List.mem_cons_self _ _)
    simp only [List.cons_append, Project.markFirst, if_neg hu, List.append_eq,
      ih (fun v hv => h v (List.mem_cons_of_mem _ hv))]
    rfl

/-! ## Lemmas about discovery -/

lemma parseDoc_serialize (d : ProjectData) : parseDoc (serialize d) = Except.ok d := by
  rw [serialize, parseDoc, List.map_map]
  have : (fun r : String × Bool × Nat =>
        ({ desc := r.1, completed := r.2.1, index := r.2.2 } : Task)) ∘
      (fun t : Task => (t.desc, t.completed, t.index)) = id := by
    funext t; rfl
  rw [this, List.map_id]

lemma loadRecAux_notFound (fs : Filesystem) :
    ∀ (dirs : List FilePath) (depth : Nat),
      (∀ dir ∈ dirs, has_project fs dir = none) →
      loadRecAux fs dirs depth = Except.error TutelError.notFound := by
  intro dirs
  induction dirs with
  | nil => intro depth _; rfl
  | cons d ds ih =>
    intro depth h
    rw [loadRecAux, h d (List.mem_cons_self _ _)]
    exact ih _ (fun u hu => h u (List.mem_cons_of_mem _ hu))

lemma loadRecAux_hit (fs : Filesystem) :
    ∀ (k : Nat) (dirs : List FilePath) (depth : Nat) (dir : FilePath),
      dirs.get? k = some dir →
      (∀ j, j < k → ∀ dj, dirs.get? j = some dj → has_project fs dj = none) →
      (fs (dir ++ [PROJECT_FILE_NAME])).isSome →
      loadRecAux fs dirs depth =
        Project.load fs (dir ++ [PROJECT_FILE_NAME]) (depth + k) := by
  intro k
  induction k with
  | zero =>
    intro dirs depth dir hk _ hp
    cases dirs with
    | nil => cases hk
    | cons d ds =>
      have hd : d = dir := by simpa using hk
      subst hd
      rw [loadRecAux, has_project]
      simp only [hp, if_pos]
      rfl
  | succ k ih =>
    intro dirs depth dir hk hmiss hp
    cases dirs with
    | nil => cases hk
    | cons d ds =>
      have h0 : has_project fs d = none := hmiss 0 (Nat.succ_pos _) d rfl
      rw [loadRecAux, h0]
      have hrec := ih ds (depth + 1) dir (by simpa using hk)
        (fun j hj dj hdj => hmiss (j + 1) (by omega) dj (by simpa using hdj)) hp
      have harith : depth + 1 + k = depth + (k + 1) := by omega
      rw [hrec, harith]

/-! ## Lemmas about operation sequences -/

lemma applyOps_append (l₁ l₂ : List Op) :
    ∀ p : Project, applyOps p (l₁ ++ l₂) = applyOps (applyOps p l₁) l₂ := by
  induction l₁ with
  | nil => intro p; rfl
  | cons op ops ih =>
    intro p
    simp only [List.cons_append, applyOps, List.append_eq, ih]

lemma indices_add (p : Project) (n : String) (c : Bool) :
    indices (p.add n c) = indices p ++ [p.next_index] := by
  simp [indices, Project.add, Task.new]

lemma indices_remove (p : Project) (i : Nat) :
    indices (p.remove i) = (indices p).filter (fun j => j ≠ i) := by
  simp only [indices, Project.remove]
  rw [List.filter_map]
  rfl

/-- Safe traces preserve pairwise-distinct indices. -/
lemma safe_preserves_nodup (ops : List Op) :
    ∀ p : Project, (indices p).Nodup → safeTrace p ops = true →
      (indices (applyOps p ops)).Nodup := by
  induction ops with
  | nil => intro p h _; exact h
  | cons op rest ih =>
    intro p h hs
    rw [safeTrace, Bool.and_eq_true] at hs
    refine ih _ ?_ hs.2
    cases op with
    | add n c =>
      have hb : ∀ t ∈ p.data.tasks, t.index < 999 := by
        have hall := hs.1
        rw [safeOp, List.all_eq_true] at hall
        intro t ht
        simpa using hall t ht
      show (indices (p.add n c)).Nodup
      rw [indices_add, List.nodup_append]
      refine ⟨h, List.nodup_singleton _, ?_⟩
      intro j hj hj2
      rcases List.mem_map.mp hj with ⟨t, ht, rfl⟩
      have hlt := next_index_gt p hb t ht
      have heq : t.index = p.next_index := List.mem_singleton.mp hj2
      omega
    | remove i =>
      show (indices (p.remove i)).Nodup
      rw [indices_remove]
      exact h.filter _

/-- After `n ≤ 1000` adds from empty, the indices are exactly
`0, 1, …, n-1`. -/
lemma indices_addMany : ∀ n : Nat, n ≤ 1000 → indices (addMany n) = List.range n := by
  intro n
  induction n with
  | zero => intro _; rfl
  | succ n ih =>
    intro hn
    have hn' : n ≤ 1000 := by omega
    have hstep : addMany (n + 1) = (addMany n).add "t" false := by
      rw [addMany, List.replicate_succ', applyOps_append]
      rfl
    rw [hstep, indices_add, ih hn']
    cases n with
    | zero => rfl
    | succ m =>
      have hidx : indices (addMany (m + 1)) = List.range (m + 1) := ih hn'
      have hnext : (addMany (m + 1)).next_index = m + 1 := by
        have hmem : ∃ t ∈ (addMany (m + 1)).data.tasks, t.index = m := by
          have hm : m ∈ indices (addMany (m + 1)) := by
            rw [hidx]; exact List.mem_range.mpr (by omega)
          rcases List.mem_map.mp hm with ⟨t, ht, he⟩
          exact ⟨t, ht, he⟩
        have hb : ∀ t ∈ (addMany (m + 1)).data.tasks, t.index ≤ m := by
          intro t ht
          have hmem2 : t.index ∈ indices (addMany (m + 1)) := List.mem_map_of_mem _ ht
          rw [hidx] at hmem2
          exact Nat.le_of_lt_succ (List.mem_range.mp hmem2)
        rw [next_index_of_max _ m hmem hb, if_neg (by omega)]
      rw [hnext, ← List.range_succ]

/-- The 1001st add allocates index 0 a second time. -/
lemma indices_addMany_1001 : indices (addMany 1001) = List.range 1000 ++ [0] := by
  have hstep : addMany 1001 = (addMany 1000).add "t" false := by
    rw [addMany, List.replicate_succ', applyOps_append]
    rfl
  have hidx : indices (addMany 1000) = List.range 1000 := indices_addMany 1000 (by omega)
  have hnext : (addMany 1000).next_index = 0 := by
    have hmem : ∃ t ∈ (addMany 1000).data.tasks, t.index = 999 := by
      have hm : (999 : Nat) ∈ indices (addMany 1000) := by
        rw [hidx]; exact List.mem_range.mpr (by omega)
      rcases List.mem_map.mp hm with ⟨t, ht, he⟩
      exact ⟨t, ht, he⟩
    have hb : ∀ t ∈ (addMany 1000).data.tasks, t.index ≤ 999 := by
      intro t ht
      have hmem2 : t.index ∈ indices (addMany 1000) := List.mem_map_of_mem _ ht
      rw [hidx] at hmem2
      exact Nat.le_of_lt_succ (List.mem_range.mp hmem2)
    rw [next_index_of_max _ 999 hmem hb, if_pos (by omega)]
  rw [hstep, indices_add, hidx, hnext]

/-! ## Claim theorems -/

/-- C1, counterexample: applying 1001 consecutive `add` operations to a
project created empty via `new` yields two tasks sharing index 0 — the
1001st add runs after `next_index` has wrapped past 999 and re-allocates
index 0 while a task with index 0 is still present, so uniqueness is NOT
preserved by every add/remove sequence. -/
theorem add_remove_uniqueness_cex :
    ¬ (indices (applyOps (Project.new [] 0 "p")
        (List.replicate 1001 (Op.add "t" false)))).Nodup := by
  intro h
  have h1 : indices (addMany 1001) = List.range 1000 ++ [0] := indices_addMany_1001
  rw [addMany] at h1
  rw [h1] at h
  rcases List.nodup_append.mp h with ⟨_, _, hdisj⟩
  exact hdisj (List.mem_range.mpr (by omega)) (List.mem_singleton.mpr rfl)

/-- C1, amended: for every sequence of add and remove operations applied
to a Project created empty via `new`, no two tasks in the resulting
collection share an index, provided every add is performed while all
existing indices are below the wrap threshold 999 (adds performed after
`next_index` has wrapped can re-allocate a live index). -/
theorem add_remove_uniqueness (file : FilePath) (steps : Nat) (name : String)
    (ops : List Op) (h : safeTrace (Project.new file steps name) ops = true) :
    (indices (applyOps (Project.new file steps name) ops)).Nodup :=
  safe_preserves_nodup ops _ (by simp [indices, Project.new]) h

/-- Witness for C1's amended theorem at a concrete trace. -/
theorem add_remove_uniqueness_witness :
    safeTrace (Project.new [] 0 "p")
        [Op.add "a" false, Op.add "b" true, Op.remove 0, Op.add "c" false] = true ∧
    (indices (applyOps (Project.new [] 0 "p")
        [Op.add "a" false, Op.add "b" true, Op.remove 0, Op.add "c" false])).Nodup :=
  ⟨by decide, add_remove_uniqueness [] 0 "p" _ (by decide)⟩

/-- C2: `next_index` returns 0 on an empty task list; otherwise, with
`m` the maximum index among existing tasks, it returns `m + 1` when
`m < 999` and 0 when `999 ≤ m`; it never fills gaps: on indices
`[5, 16]` it returns 17, on `[999, 3]` it returns 0, and on `[0, 2]` it
returns 3, not 1. -/
theorem next_index_spec :
    (∀ p : Project, p.data.tasks = [] → p.next_index = 0) ∧
    (∀ (p : Project) (m : Nat), m ∈ indices p → (∀ i ∈ indices p, i ≤ m) →
      p.next_index = if 999 ≤ m then 0 else m + 1) ∧
    (projOf (tasksOf [5, 16])).next_index = 17 ∧
    (projOf (tasksOf [999, 3])).next_index = 0 ∧
    (projOf (tasksOf [])).next_index = 0 ∧
    (projOf (tasksOf [0, 2])).next_index = 3 := by
  refine ⟨?_, ?_, by decide, by decide, by decide, by decide⟩
  · intro p hp
    rw [Project.next_index, hp]
    rfl
  · intro p m hm hb
    rcases List.mem_map.mp hm with ⟨t, ht, he⟩
    exact next_index_of_max p m ⟨t, ht, he⟩
      (fun u hu => hb u.index (List.mem_map_of_mem _ hu))

/-- Witness for C2 at a concrete project and maximum. -/
theorem next_index_spec_witness :
    (16 ∈ indices (projOf (tasksOf [5, 16])) ∧
      ∀ i ∈ indices (projOf (tasksOf [5, 16])), i ≤ 16) ∧
    (projOf (tasksOf [5, 16])).next_index = if 999 ≤ 16 then 0 else 16 + 1 :=
  ⟨⟨by decide, by decide⟩,
    next_index_spec.2.1 (projOf (tasksOf [5, 16])) 16 (by decide) (by decide)⟩

/-- C3: `load_project_rec` visits the ancestors of the start directory
in order (the directory itself first, then each parent, up to the
filesystem root); on the first directory whose project file exists it
loads and returns that project with its depth equal to the number of
hops taken (0 for the start directory); if no ancestor has the file it
fails with the not-found error. -/
theorem discovery_spec :
    (∀ (fs : Filesystem) (path : FilePath) (k : Nat) (dir : FilePath) (d : ProjectData),
      (ancestors path).get? k = some dir →
      (∀ j, j < k → has_project fs ((ancestors path).getD j []) = none) →
      fs (dir ++ [PROJECT_FILE_NAME]) = some (serialize d) →
      load_project_rec fs path =
        Except.ok { path := dir ++ [PROJECT_FILE_NAME], steps := k, data := d }) ∧
    (∀ (fs : Filesystem) (path : FilePath),
      (∀ dir ∈ ancestors path, has_project fs dir = none) →
      load_project_rec fs path = Except.error TutelError.notFound) := by
  constructor
  · intro fs path k dir d hk hmiss hhit
    have hmiss2 : ∀ j, j < k → ∀ dj, (ancestors path).get? j = some dj →
        has_project fs dj = none := by
      intro j hj dj hdj
      have hget : (ancestors path).getD j [] = dj := by
        rw [List.getD_eq_getElem?_getD, ← List.get?_eq_getElem?, hdj]
        rfl
      rw [← hget]
      exact hmiss j hj
    have h2 := loadRecAux_hit fs k (ancestors path) 0 dir hk hmiss2 (by rw [hhit]; rfl)
    rw [load_project_rec, h2, Nat.zero_add]
    simp [Project.load, hhit, parseDoc_serialize, Except.map]
  · intro fs path h
    exact loadRecAux_notFound fs (ancestors path) 0 h

/-- Witness for C3: directories a > a/b > a/b/c with the project file
only in a; discovery from a/b/c succeeds at depth 2; on the empty
filesystem it reports not-found. -/
theorem discovery_spec_witness :
    load_project_rec (singleFs ["a", PROJECT_FILE_NAME] (serialize testProject.data))
        ["a", "b", "c"] =
      Except.ok { path := ["a", PROJECT_FILE_NAME] , steps := 2, data := testProject.data } ∧
    load_project_rec emptyFs ["a", "b", "c"] = Except.error TutelError.notFound :=
  ⟨discovery_spec.1 (singleFs ["a", PROJECT_FILE_NAME] (serialize testProject.data))
      ["a", "b", "c"] 2 ["a"] testProject.data (by rfl) (by decide) (by rfl),
    discovery_spec.2 emptyFs ["a", "b", "c"] (by decide)⟩

/-- C8: when the first ancestor directory holding a project file holds
one that fails to parse, discovery returns the parse error, not
not-found, and does not walk on to further ancestors. -/
theorem malformed_not_skipped (fs : Filesystem) (path : FilePath) (k : Nat)
    (dir : FilePath)
    (hk : (ancestors path).get? k = some dir)
    (hmiss : ∀ j, j < k → has_project fs ((ancestors path).getD j []) = none)
    (hbad : fs (dir ++ [PROJECT_FILE_NAME]) = some Doc.malformed) :
    load_project_rec fs path = Except.error TutelError.parseError := by
  have hmiss2 : ∀ j, j < k → ∀ dj, (ancestors path).get? j = some dj →
      has_project fs dj = none := by
    intro j hj dj hdj
    have hget : (ancestors path).getD j [] = dj := by
      rw [List.getD_eq_getElem?_getD, ← List.get?_eq_getElem?, hdj]
      rfl
    rw [← hget]
    exact hmiss j hj
  have h2 := loadRecAux_hit fs k (ancestors path) 0 dir hk hmiss2 (by rw [hbad]; rfl)
  rw [load_project_rec, h2]
  simp [Project.load, hbad, parseDoc, Except.map]

/-- Witness for C8: a malformed project file in the start directory and
a well-formed one in the parent; discovery surfaces the parse error
instead of skipping to the parent. -/
theorem malformed_not_skipped_witness :
    load_project_rec
        (twoFs ["a", "b", PROJECT_FILE_NAME] Doc.malformed
          ["a", PROJECT_FILE_NAME] (serialize testProject.data))
        ["a", "b"] =
      Except.error TutelError.parseError :=
  malformed_not_skipped
    (twoFs ["a", "b", PROJECT_FILE_NAME] Doc.malformed
      ["a", PROJECT_FILE_NAME] (serialize testProject.data))
    ["a", "b"] 0 ["a", "b"] (by rfl) (by decide) (by rfl)

/-- C4: saving a project and then loading the written file yields a
project with identical name and task list (order, description,
completed flag and index of every task); in particular for the
"testproject" example with tasks ("testtask", completed, 67) and
("moretest", not completed, 99). -/
theorem save_load_roundtrip :
    (∀ (p : Project) (fs : Filesystem) (steps : Nat),
      Project.load (p.save fs) p.path steps =
        Except.ok { path := p.path, steps := steps, data := p.data }) ∧
    Project.load (testProject.save emptyFs) testProject.path 0 = Except.ok testProject := by
  have h : ∀ (p : Project) (fs : Filesystem) (steps : Nat),
      Project.load (p.save fs) p.path steps =
        Except.ok { path := p.path, steps := steps, data := p.data } := by
    intro p fs steps
    simp [Project.load, Project.save, parseDoc_serialize, Except.map]
  exact ⟨h, h testProject emptyFs 0⟩

/-- C5: `mark_completion(index, completed)` succeeds exactly when a task
with that index exists; it sets the flag on the first matching task,
leaving every other task alone; on a missing index it fails with the
index-not-found error and leaves the task collection unchanged. -/
theorem mark_completion_spec :
    (∀ (p : Project) (i : Nat) (c : Bool),
      (p.mark_completion i c).1 = Except.ok () ↔ ∃ t ∈ p.data.tasks, t.index = i) ∧
    (∀ (p : Project) (i : Nat) (c : Bool), (∀ t ∈ p.data.tasks, t.index ≠ i) →
      p.mark_completion i c = (Except.error (TutelError.indexNotFound i), p)) ∧
    (∀ (p : Project) (i : Nat) (c : Bool) (l₁ : List Task) (t : Task) (l₂ : List Task),
      p.data.tasks = l₁ ++ t :: l₂ → (∀ u ∈ l₁, u.index ≠ i) → t.index = i →
      (p.mark_completion i c).2.data.tasks = l₁ ++ { t with completed := c } :: l₂) := by
  refine ⟨?_, ?_, ?_⟩
  · intro p i c
    rw [Project.mark_completion]
    cases hm : Project.markFirst i c p.data.tasks with
    | none =>
      have hall := (markFirst_eq_none_iff i c p.data.tasks).mp hm
      constructor
      · intro h
        exact absurd h (by simp)
      · rintro ⟨t, ht, hti⟩
        exact absurd hti (hall t ht)
    | some ts =>
      have hex : ∃ t ∈ p.data.tasks, t.index = i := by
        by_contra hc
        push_neg at hc
        rw [(markFirst_eq_none_iff i c p.data.tasks).mpr hc] at hm
        cases hm
      simpa using hex
  · intro p i c h
    rw [Project.mark_completion, (markFirst_eq_none_iff i c p.data.tasks).mpr h]
  · intro p i c l₁ t l₂ hp h1 ht
    rw [Project.mark_completion, hp, markFirst_append i c t l₂ ht l₁ h1]

/-- Witness for C5: marking a missing index fails and leaves the project
unchanged; marking index 4 flips the flag of the task with index 4. -/
theorem mark_completion_spec_witness :
    (projOf (tasksOf [3, 4])).mark_completion 7 true =
        (Except.error (TutelError.indexNotFound 7), projOf (tasksOf [3, 4])) ∧
    ((projOf (tasksOf [3, 4])).mark_completion 4 true).2.data.tasks =
        [Task.new "t" false 3, { Task.new "t" false 4 with completed := true }] :=
  ⟨mark_completion_spec.2.1 _ 7 true (by decide),
    mark_completion_spec.2.2 _ 4 true [Task.new "t" false 3] (Task.new "t" false 4) []
      (by rfl) (by decide) (by rfl)⟩

/-- C6: `remove(index)` removes the task with the given index when
present and is a no-op on a missing index: its result keeps exactly the
tasks whose index differs, and when no task carries the index the
project is exactly unchanged (the operation is total — it returns no
error at all). -/
theorem remove_spec :
    (∀ (p : Project) (i : Nat), (∀ t ∈ p.data.tasks, t.index ≠ i) → p.remove i = p) ∧
    (∀ (p : Project) (i : Nat) (t : Task),
      t ∈ (p.remove i).data.tasks ↔ t ∈ p.data.tasks ∧ t.index ≠ i) := by
  constructor
  · intro p i h
    have hfilter : p.data.tasks.filter (fun t => t.index ≠ i) = p.data.tasks :=
      List.filter_eq_self.mpr (fun t ht => by simpa using h t ht)
    rw [Project.remove, hfilter]
  · intro p i t
    rw [Project.remove]
    simp [List.mem_filter]

/-- Witness for C6: removing the absent index 7 changes nothing. -/
theorem remove_spec_witness :
    (projOf (tasksOf [3, 4])).remove 7 = projOf (tasksOf [3, 4]) :=
  remove_spec.1 _ 7 (by decide)

/-- C7: `remove_completed` removes exactly the tasks whose completed
flag is true: the survivors form a sublist of the original (original
relative order), every incomplete task keeps its multiplicity and every
completed task is gone; on flags [true,false,false,true,false] exactly
the three incomplete tasks remain, in order. -/
theorem remove_completed_spec :
    (∀ p : Project, (p.remove_completed).data.tasks.Sublist p.data.tasks) ∧
    (∀ (p : Project) (t : Task),
      (p.remove_completed).data.tasks.count t =
        if t.completed then 0 else p.data.tasks.count t) ∧
    ((projOf [Task.new "a" true 0, Task.new "b" false 1, Task.new "c" false 2,
        Task.new "d" true 3, Task.new "e" false 4]).remove_completed).data.tasks =
      [Task.new "b" false 1, Task.new "c" false 2, Task.new "e" false 4] := by
  refine ⟨?_, ?_, by decide⟩
  · intro p
    exact List.filter_sublist _
  · intro p t
    by_cases hc : t.completed
    · rw [if_pos hc, List.count_eq_zero]
      intro hmem
      have hkeep := List.of_mem_filter hmem
      simp [hc] at hkeep
    · rw [if_neg hc]
      exact List.count_filter (by simp [hc])

/-- C9: whatever indices the tasks carry (including values above 999
accepted by the permissive load), `next_index` returns a value between
0 and 999; any task index of 999 or more forces the result 0, so the
allocator never leaves the 1000-slot space. -/
theorem next_index_in_range :
    (∀ p : Project, p.next_index ≤ 999) ∧
    (∀ p : Project, (∃ t ∈ p.data.tasks, 999 ≤ t.index) → p.next_index = 0) :=
  ⟨next_index_le, next_index_wrap⟩

/-- Witness for C9: a task with index 1500 forces allocation to wrap to
0. -/
theorem next_index_in_range_witness :
    (∃ t ∈ (projOf (tasksOf [1500, 3])).data.tasks, 999 ≤ t.index) ∧
    (projOf (tasksOf [1500, 3])).next_index = 0 :=
  ⟨⟨Task.new "t" false 1500, by decide, by decide⟩,
    next_index_in_range.2 _ ⟨Task.new "t" false 1500, by decide, by decide⟩⟩

/-- C10: `remove` deletes every task carrying the given index, not just
the first, while the `get_task_mut` lookup and `mark_completion` act on
the first matching task in insertion order: with two tasks both at
index 5, remove leaves none of them, the lookup returns the first, and
marking flips only the first one's flag. -/
theorem remove_all_duplicates :
    (∀ (p : Project) (i : Nat) (t : Task), t ∈ (p.remove i).data.tasks → t.index ≠ i) ∧
    (dupProject.remove 5).data.tasks = [] ∧
    dupProject.get_task 5 = some (Task.new "a" false 5) ∧
    (dupProject.mark_completion 5 true).2.data.tasks =
      [Task.new "a" true 5, Task.new "b" false 5] := by
  refine ⟨?_, by decide, by rfl, by rfl⟩
  · intro p i t ht
    have hkeep := List.of_mem_filter ht
    simpa using hkeep

/-- Witness for C10: the surviving task of a removal indeed carries a
different index. -/
theorem remove_all_duplicates_witness :
    Task.new "t" false 5 ∈ ((projOf (tasksOf [3, 5])).remove 3).data.tasks ∧
    (Task.new "t" false 5).index ≠ 3 :=
  ⟨by decide, remove_all_duplicates.1 (projOf (tasksOf [3, 5])) 3 _ (by decide)⟩

end Tutel
